import Mathlib

/-!
# Verification of the branch/commit version tree of `tarea2.py`

Shallow embedding of the Branch/Commit Version Tree & Merge Engine
(`Commit`, `BranchNode`, `BranchManager` of `src/tarea2.py`) and proofs
about its traversal, diff/merge, deletion and persistence behaviour.

Modelling conventions:
* Python string values that may also be `None` are modelled as
  `Option String` (`none` = Python `None`).
* A Python `dict` of files is an insertion-ordered association list
  `Dict := List (String × Option String)`; `dict.get` is `Dict.pyGet`
  (returning `none` both for a missing key and for a stored `None`,
  exactly as Python `.get`).
* The object graph of `BranchNode`s (which has aliasing: the `current`
  cursor and the `parent` back-references point into the same heap of
  objects) is modelled as an arena: a list of node records addressed by
  index, with `parent : Option Nat` and `children : List Nat`.
* Pure rose-tree (`BTree`) counterparts of the two search algorithms
  are used to state the algorithmic claims that quantify over all trees.
-/

/-- A commit record: `Commit.__init__` of `tarea2.py` (id, message, files). -/
structure Commit where
  id : String
  message : String
  files : List (String × Option String)
deriving DecidableEq, Repr

/-- A Python `dict` of files: insertion-ordered association list. -/
abbrev Dict := List (String × Option String)

/-- Python truthiness of a string-or-None value: `None` and `""` are falsy. -/
def pyTruthy : Option String → Bool
  | none => false
  | some s => !(s == "")

/-- Python `a or b` on string-or-None values: `a` if truthy, else `b`. -/
def pyOr (a b : Option String) : Option String :=
  if pyTruthy a then a else b

/-- Python `d.get(k)`: the stored value, or `None` when the key is absent
(a stored `None` and an absent key are both `none`). -/
def Dict.pyGet (d : Dict) (k : String) : Option String :=
  match d.lookup k with
  | some v => v
  | none => none

/-- The keys of a dict, in insertion order. -/
def Dict.keys (d : Dict) : List String := d.map Prod.fst

/-- The iteration of `set(source_files) | set(target_files)` in
`_calculate_diff`, fixed to: keys of the first dict in order, then the
keys of the second not already seen (Python's set iteration order is
unspecified; only the resulting mapping matters for the claims). -/
def Dict.unionKeys (s t : Dict) : List String :=
  (s.keys ++ t.keys).dedup

/-- The rose tree of branch data: exactly the fields that
`_serialize` writes per node (`name`, `commits`, `children`) — this is
both the persisted document shape and the pure view of the tree. -/
inductive BTree where
  | node (name : String) (commits : List Commit) (children : List BTree)

def BTree.name : BTree → String
  | .node n _ _ => n

def BTree.commits : BTree → List Commit
  | .node _ cm _ => cm

def BTree.children : BTree → List BTree
  | .node _ _ cs => cs

mutual
/-- `BranchManager._find_branch_postorder` on the pure tree: recurse into
each child in list order, return the first hit from any child subtree,
and only compare the node's own name after every child subtree failed. -/
def findPostT (name : String) : BTree → Option BTree
  | .node n cm cs =>
    match findPostListT name cs with
    | some r => some r
    | none => if n = name then some (.node n cm cs) else none

def findPostListT (name : String) : List BTree → Option BTree
  | [] => none
  | c :: cs =>
    match findPostT name c with
    | some r => some r
    | none => findPostListT name cs
end

mutual
/-- Whether any node of the tree bears the given name. -/
def containsNameT (name : String) : BTree → Bool
  | .node n _ cs => n == name || containsNameListT name cs

def containsNameListT (name : String) : List BTree → Bool
  | [] => false
  | c :: cs => containsNameT name c || containsNameListT name cs
end

mutual
/-- `BranchManager._checkout_inorder` on the pure tree, returning the node
that would become `current`: compare the node itself first; then try
every child except the last, left to right; only then the last child. -/
def checkoutT (name : String) : BTree → Option BTree
  | .node n cm cs =>
    if n = name then some (.node n cm cs)
    else checkoutChildrenT name cs

def checkoutChildrenT (name : String) : List BTree → Option BTree
  | [] => none
  | [c] => checkoutT name c
  | c :: c' :: cs =>
    match checkoutT name c with
    | some r => some r
    | none => checkoutChildrenT name (c' :: cs)
end

mutual
/-- Ordinary left-to-right depth-first search: the node itself, then the
children in list order (the reference order the spec compares checkout's
search against). -/
def dfsT (name : String) : BTree → Option BTree
  | .node n cm cs =>
    if n = name then some (.node n cm cs)
    else dfsChildrenT name cs

def dfsChildrenT (name : String) : List BTree → Option BTree
  | [] => none
  | c :: cs =>
    match dfsT name c with
    | some r => some r
    | none => dfsChildrenT name cs
end

/-- Structural induction for `BTree` with the children quantified. -/
theorem BTree.inductionOn (P : BTree → Prop)
    (h : ∀ n cm cs, (∀ c ∈ cs, P c) → P (BTree.node n cm cs)) :
    ∀ t, P t := by
  have key : ∀ k (t : BTree), sizeOf t ≤ k → P t := by
    intro k
    induction k with
    | zero =>
      intro t ht
      cases t with
      | node n cm cs => simp at ht
    | succ k ih =>
      intro t ht
      cases t with
      | node n cm cs =>
        apply h
        intro c hc
        apply ih
        have hlt : sizeOf c < sizeOf cs := List.sizeOf_lt_of_mem hc
        simp at ht
        omega
  intro t
  exact key (sizeOf t) t (Nat.le_refl _)

/-! ## Facts about the postorder-first-match search (`_find_branch_postorder`) -/

theorem findPostListT_eq_some {name : String} {cs : List BTree} {r : BTree}
    (h : findPostListT name cs = some r) : ∃ c ∈ cs, findPostT name c = some r := by
  induction cs with
  | nil => simp [findPostListT] at h
  | cons c cs ih =>
    rw [findPostListT] at h
    cases hc : findPostT name c with
    | some r' =>
      rw [hc] at h
      exact ⟨c, by simp, by simpa using h ▸ hc⟩
    | none =>
      rw [hc] at h
      obtain ⟨c', hc', hfc'⟩ := ih h
      exact ⟨c', by simp [hc'], hfc'⟩

theorem containsNameListT_eq_false_iff {name : String} {cs : List BTree} :
    containsNameListT name cs = false ↔ ∀ c ∈ cs, containsNameT name c = false := by
  induction cs with
  | nil => simp [containsNameListT]
  | cons c cs ih => simp [containsNameListT, ih]

theorem findPostT_isSome (name : String) :
    ∀ t : BTree, (findPostT name t).isSome = containsNameT name t := by
  apply BTree.inductionOn
  intro n cm cs ih
  have hlist : (findPostListT name cs).isSome = containsNameListT name cs := by
    induction cs with
    | nil => simp [findPostListT, containsNameListT]
    | cons c cs ihl =>
      rw [findPostListT, containsNameListT]
      cases hc : findPostT name c with
      | some r =>
        have := ih c (by simp)
        rw [hc] at this
        simp [← this]
      | none =>
        have := ih c (by simp)
        rw [hc] at this
        simp [← this]
        exact ihl fun c hc => ih c (by simp [hc])
  rw [findPostT, containsNameT]
  cases hl : findPostListT name cs with
  | some r =>
    rw [hl] at hlist
    simp [← hlist]
  | none =>
    rw [hl] at hlist
    simp [← hlist]
    by_cases hn : n = name <;> simp [hn]

theorem findPostT_none_iff (name : String) (t : BTree) :
    findPostT name t = none ↔ containsNameT name t = false := by
  have := findPostT_isSome name t
  cases h : findPostT name t <;> rw [h] at this <;> simp_all

theorem findPostListT_none_iff {name : String} {cs : List BTree} :
    findPostListT name cs = none ↔ ∀ c ∈ cs, containsNameT name c = false := by
  induction cs with
  | nil => simp [findPostListT]
  | cons c cs ih =>
    rw [findPostListT]
    cases hc : findPostT name c with
    | some r =>
      simp only [reduceCtorEq, false_iff]
      intro hall
      have := (findPostT_none_iff name c).mpr (hall c (by simp))
      rw [this] at hc
      exact absurd hc (by simp)
    | none =>
      have hcc := (findPostT_none_iff name c).mp hc
      simp [ih, hcc]

theorem findPostT_result_matches (name : String) :
    ∀ t : BTree, ∀ r, findPostT name t = some r →
      r.name = name ∧ ∀ c ∈ r.children, containsNameT name c = false := by
  apply BTree.inductionOn
  intro n cm cs ih r hr
  rw [findPostT] at hr
  cases hl : findPostListT name cs with
  | some r' =>
    rw [hl] at hr
    obtain ⟨c, hc, hfc⟩ := findPostListT_eq_some hl
    have hr' : r' = r := by simpa using hr
    exact ih c hc r (hr' ▸ hfc)
  | none =>
    rw [hl] at hr
    by_cases hn : n = name
    · simp only [hn, if_pos rfl] at hr
      have hr' : r = BTree.node name cm cs := by
        cases hr
        rfl
      subst hr'
      refine ⟨rfl, ?_⟩
      simpa [BTree.children] using findPostListT_none_iff.mp hl
    · simp [hn] at hr

theorem findPostListT_eq_find? (name : String) (cs : List BTree) :
    findPostListT name cs =
      match cs.find? (containsNameT name) with
      | some c => findPostT name c
      | none => none := by
  induction cs with
  | nil => simp [findPostListT]
  | cons c cs ih =>
    rw [findPostListT, List.find?]
    cases hcc : containsNameT name c with
    | true =>
      have := findPostT_isSome name c
      rw [hcc] at this
      cases hc : findPostT name c with
      | some r => simp [hc]
      | none => rw [hc] at this; simp at this
    | false =>
      have hc : findPostT name c = none := (findPostT_none_iff name c).mpr hcc
      rw [hc]
      exact ih

/-- C3: the postorder-first-match search (`_find_branch_postorder`, used by
`delete_branch` and by `merge`'s source lookup) returns a hit from the
first child subtree, in child-list order, that contains one; it compares
the node's own name only after all child subtrees failed; the returned
node never has a matching proper descendant (so an ancestor is never
returned over a matching descendant, and along one root-to-leaf path a
repeated name resolves to the deepest occurrence); it returns nothing
exactly when the name occurs nowhere in the tree. -/
theorem c3_postorder_first_match (t : BTree) (name : String) :
    (∀ r, findPostT name t = some r →
        r.name = name ∧ ∀ c ∈ r.children, containsNameT name c = false)
  ∧ (findPostT name t = none ↔ containsNameT name t = false)
  ∧ (∀ n cm cs, t = BTree.node n cm cs →
      findPostT name t =
        match cs.find? (containsNameT name) with
        | some c => findPostT name c
        | none => if n = name then some t else none) := by
  refine ⟨findPostT_result_matches name t, findPostT_none_iff name t, ?_⟩
  intro n cm cs ht
  subst ht
  rw [findPostT, findPostListT_eq_find? name cs]
  cases hf : cs.find? (containsNameT name) with
  | some c =>
    have hmem := List.mem_of_find?_eq_some hf
    have hcc : containsNameT name c = true := List.find?_some hf
    have := findPostT_isSome name c
    rw [hcc] at this
    cases hc : findPostT name c with
    | some r => simp [hc]
    | none => rw [hc] at this; simp at this
  | none => simp

/-- Concrete instance of `c3_postorder_first_match`: in the tree
`main → [x]`, searching `"x"` returns the leaf, whose name is `"x"` and
whose child subtrees (none) contain no further match. -/
theorem c3_postorder_first_match_witness :
    (BTree.node "x" [] []).name = "x" ∧
      ∀ c ∈ (BTree.node "x" [] []).children, containsNameT "x" c = false :=
  (c3_postorder_first_match (BTree.node "main" [] [BTree.node "x" [] []]) "x").1
    (BTree.node "x" [] []) (by rfl)

/-! ## C7: checkout's deferred-last-child DFS agrees with plain DFS -/

theorem checkoutChildrenT_eq_dfsChildrenT {name : String} {cs : List BTree}
    (h : ∀ c ∈ cs, checkoutT name c = dfsT name c) :
    checkoutChildrenT name cs = dfsChildrenT name cs := by
  induction cs with
  | nil => rfl
  | cons c cs ih =>
    cases cs with
    | nil =>
      rw [checkoutChildrenT, dfsChildrenT, h c (by simp)]
      cases dfsT name c <;> simp [dfsChildrenT]
    | cons c' cs' =>
      rw [checkoutChildrenT, dfsChildrenT, h c (by simp)]
      cases dfsT name c with
      | some r => rfl
      | none => exact ih fun d hd => h d (by simp [hd])

/-- C7: for every tree and every target name, the deferred-last-child DFS
used by `checkout` (`_checkout_inorder`: self first, then every child but
the last left to right, then the last child) finds a node if and only if
an ordinary left-to-right depth-first search does, and it selects the
same node as the new `current`. -/
theorem c7_checkout_equiv_plain_dfs (name : String) :
    ∀ t : BTree, checkoutT name t = dfsT name t := by
  apply BTree.inductionOn
  intro n cm cs ih
  rw [checkoutT, dfsT]
  by_cases hn : n = name
  · simp [hn]
  · simp only [hn, if_neg, ite_false]
    exact checkoutChildrenT_eq_dfsChildrenT ih

/-! ## The diff algorithm (`_calculate_diff`) -/

/-- `source_files = source.commits[-1].files if source.commits else {}`:
the file table of a branch's latest commit, empty when there is none. -/
def latestFiles (commits : List Commit) : Dict :=
  match commits.getLast? with
  | some c => c.files
  | none => []

/-- An arena node: the fields of `BranchNode.__init__` (`name`, `parent`,
`children`, `commits`), with object references replaced by arena indices. -/
structure Node where
  name : String
  parent : Option Nat
  children : List Nat
  commits : List Commit
deriving DecidableEq, Repr

/-- `BranchManager._calculate_diff`: for every file in the union of the
two latest file tables, if the two `.get` results differ, the diff maps
the file to `source_files.get(file) or target_files.get(file)`. -/
def calculate_diff (source target : Node) : Dict :=
  let source_files := latestFiles source.commits
  let target_files := latestFiles target.commits
  (Dict.unionKeys source_files target_files).filterMap fun file =>
    if source_files.pyGet file ≠ target_files.pyGet file then
      some (file, pyOr (source_files.pyGet file) (target_files.pyGet file))
    else none

theorem Dict.pyGet_eq_none_of_not_mem_keys {d : Dict} {k : String}
    (h : k ∉ d.keys) : d.pyGet k = none := by
  induction d with
  | nil => rfl
  | cons e d ih =>
    obtain ⟨k', v⟩ := e
    simp [Dict.keys] at h
    push_neg at h
    rw [Dict.pyGet, List.lookup]
    have : (k == k') = false := by
      simp only [beq_eq_false_iff_ne, ne_eq]
      exact h.1
    rw [this]
    exact ih (by simp [Dict.keys, h.2])

theorem lookup_diff_list (U : List String) (S T : Dict) (k : String)
    (hU : U.Nodup) :
    (U.filterMap fun file =>
        if S.pyGet file ≠ T.pyGet file then
          some (file, pyOr (S.pyGet file) (T.pyGet file))
        else none).lookup k
      = if k ∈ U ∧ S.pyGet k ≠ T.pyGet k then
          some (pyOr (S.pyGet k) (T.pyGet k))
        else none := by
  induction U with
  | nil => simp
  | cons u U ih =>
    have hu : u ∉ U := (List.nodup_cons.mp hU).1
    have hU' : U.Nodup := (List.nodup_cons.mp hU).2
    rw [List.filterMap_cons]
    by_cases hcond : S.pyGet u ≠ T.pyGet u
    · rw [if_pos hcond]
      by_cases hk : k = u
      · subst hk
        rw [List.lookup_cons_self]
        simp [hcond]
      · rw [List.lookup]
        have : (k == u) = false := by simpa using hk
        rw [this, ih hU']
        simp [hk]
    · rw [if_neg hcond]
      by_cases hk : k = u
      · subst hk
        rw [ih hU']
        simp_all
      · rw [ih hU']
        simp [hk]

theorem Dict.unionKeys_nodup (s t : Dict) : (Dict.unionKeys s t).Nodup :=
  List.nodup_dedup _

theorem Dict.mem_unionKeys {s t : Dict} {k : String} :
    k ∈ Dict.unionKeys s t ↔ k ∈ s.keys ∨ k ∈ t.keys := by
  simp [Dict.unionKeys]

/-- C2: the diff computed by `_calculate_diff` maps exactly those paths on
which the two latest file tables' `.get` results differ (one side missing
reads as `None`) to the source value when that value is a non-empty
string, and otherwise to the target value; paths with equal values on
both sides are absent from the diff. -/
theorem c2_calculate_diff_characterization (source target : Node) (k : String) :
    (calculate_diff source target).lookup k =
      (if (latestFiles source.commits).pyGet k ≠ (latestFiles target.commits).pyGet k
       then some (pyOr ((latestFiles source.commits).pyGet k)
                       ((latestFiles target.commits).pyGet k))
       else none) := by
  set S := latestFiles source.commits with hS
  set T := latestFiles target.commits with hT
  have h := lookup_diff_list (Dict.unionKeys S T) S T k (Dict.unionKeys_nodup S T)
  rw [calculate_diff]
  rw [← hS, ← hT] at *
  rw [h]
  by_cases hmem : k ∈ Dict.unionKeys S T
  · simp [hmem]
  · have hks : k ∉ S.keys := fun hk => hmem (Dict.mem_unionKeys.mpr (Or.inl hk))
    have hkt : k ∉ T.keys := fun hk => hmem (Dict.mem_unionKeys.mpr (Or.inr hk))
    rw [Dict.pyGet_eq_none_of_not_mem_keys hks, Dict.pyGet_eq_none_of_not_mem_keys hkt]
    simp [hmem]

/-! ## Commit hashing: `hashlib.sha1(str(files_dict).encode()).hexdigest()[:7]` -/

/-- Left-rotation of a 32-bit word. -/
def rotl32 (n x : Nat) : Nat := ((x <<< n) ||| (x >>> (32 - n))) % 4294967296

/-- Big-endian byte decomposition of `n` into `k` bytes. -/
def beBytes (k n : Nat) : List Nat :=
  (List.range k).map fun i => (n >>> (8 * (k - 1 - i))) % 256

/-- SHA-1 message padding: `0x80`, zeros to 56 mod 64, 64-bit bit length. -/
def sha1Pad (msg : List Nat) : List Nat :=
  let zeros := (64 + 56 - (msg.length + 1) % 64) % 64
  msg ++ [128] ++ List.replicate zeros 0 ++ beBytes 8 (8 * msg.length)

/-- Big-endian bytes to 32-bit words. -/
def bytesToWords : List Nat → List Nat
  | b0 :: b1 :: b2 :: b3 :: rest =>
    (((b0 * 256 + b1) * 256 + b2) * 256 + b3) :: bytesToWords rest
  | _ => []

/-- Split a word list into 16-word blocks. -/
def chunks16 (ws : List Nat) : List (List Nat) :=
  go ws.length ws
where
  go : Nat → List Nat → List (List Nat)
    | _, [] => []
    | 0, _ => []
    | Nat.succ f, l => l.take 16 :: go f (l.drop 16)

/-- SHA-1 message schedule: extend 16 words to 80. -/
def sha1Extend (w : List Nat) : List Nat :=
  (List.range 64).foldl (fun acc _ =>
    acc ++ [rotl32 1 ((acc.getD (acc.length - 3) 0) ^^^ (acc.getD (acc.length - 8) 0) ^^^
                      (acc.getD (acc.length - 14) 0) ^^^ (acc.getD (acc.length - 16) 0))]) w

/-- SHA-1 round function. -/
def sha1F (i b c d : Nat) : Nat :=
  if i < 20 then (b &&& c) ||| ((b ^^^ 4294967295) &&& d)
  else if i < 40 then b ^^^ c ^^^ d
  else if i < 60 then (b &&& c) ||| (b &&& d) ||| (c &&& d)
  else b ^^^ c ^^^ d

/-- SHA-1 round constants. -/
def sha1K (i : Nat) : Nat :=
  if i < 20 then 1518500249
  else if i < 40 then 1859775393
  else if i < 60 then 2400959708
  else 3395469782

/-- One SHA-1 compression over a 16-word block. -/
def sha1Compress (h : Nat × Nat × Nat × Nat × Nat) (block : List Nat) :
    Nat × Nat × Nat × Nat × Nat :=
  let w := sha1Extend block
  let s := w.enum.foldl (fun st iw =>
    let temp := (rotl32 5 st.1 + sha1F iw.1 st.2.1 st.2.2.1 st.2.2.2.1 +
                 st.2.2.2.2 + sha1K iw.1 + iw.2) % 4294967296
    (temp, st.1, rotl32 30 st.2.1, st.2.2.1, st.2.2.2.1)) h
  ((h.1 + s.1) % 4294967296, (h.2.1 + s.2.1) % 4294967296,
   (h.2.2.1 + s.2.2.1) % 4294967296, (h.2.2.2.1 + s.2.2.2.1) % 4294967296,
   (h.2.2.2.2 + s.2.2.2.2) % 4294967296)

/-- SHA-1 over a byte list: the five 32-bit state words. -/
def sha1Words (msg : List Nat) : Nat × Nat × Nat × Nat × Nat :=
  (chunks16 (bytesToWords (sha1Pad msg))).foldl sha1Compress
    (1732584193, 4023233417, 2562383102, 271733878, 3285377520)

/-- Lowercase hex digit. -/
def hexDigitChar (n : Nat) : Char := "0123456789abcdef".data.getD (n % 16) '0'

/-- Eight lowercase hex digits of a 32-bit word. -/
def toHex8 (x : Nat) : List Char :=
  [hexDigitChar (x >>> 28), hexDigitChar (x >>> 24), hexDigitChar (x >>> 20),
   hexDigitChar (x >>> 16), hexDigitChar (x >>> 12), hexDigitChar (x >>> 8),
   hexDigitChar (x >>> 4), hexDigitChar x]

/-- `hashlib.sha1(...).hexdigest()` as a character list (40 hex digits). -/
def sha1HexChars (msg : List Nat) : List Char :=
  toHex8 (sha1Words msg).1 ++ toHex8 (sha1Words msg).2.1 ++
  toHex8 (sha1Words msg).2.2.1 ++ toHex8 (sha1Words msg).2.2.2.1 ++
  toHex8 (sha1Words msg).2.2.2.2

/-- UTF-8 encoding of one character (`str.encode()`). -/
def charUtf8 (c : Char) : List Nat :=
  let n := c.toNat
  if n < 128 then [n]
  else if n < 2048 then [192 ||| (n >>> 6), 128 ||| (n % 64)]
  else if n < 65536 then [224 ||| (n >>> 12), 128 ||| ((n >>> 6) % 64), 128 ||| (n % 64)]
  else [240 ||| (n >>> 18), 128 ||| ((n >>> 12) % 64), 128 ||| ((n >>> 6) % 64), 128 ||| (n % 64)]

/-- `s.encode()`: the UTF-8 bytes of a string. -/
def strBytes (s : String) : List Nat := (s.data.map charUtf8).flatten

/-- Python `repr` of a plain string (no quote or backslash characters):
the string wrapped in single quotes. -/
def pyReprStr (s : String) : String := "\x27" ++ s ++ "\x27"

/-- Python `repr` of a string-or-None value. -/
def pyReprVal : Option String → String
  | none => "None"
  | some s => pyReprStr s

/-- Python `str()` of a files dict: entries in insertion order, rendered
as `\x7b'k': 'v', ...\x7d` — this is the exact string `merge` and
`_apply_merge` feed to `hashlib.sha1`, and it depends on the dict's
insertion order. -/
def dict_str (d : Dict) : String :=
  "\x7b" ++ String.intercalate ", "
    (d.map fun e => pyReprStr e.1 ++ ": " ++ pyReprVal e.2) ++ "\x7d"

/-- The commit id built during merge:
`hashlib.sha1(str(d).encode()).hexdigest()[:7]`. -/
def commit_hash (d : Dict) : String :=
  String.mk ((sha1HexChars (strBytes (dict_str d))).take 7)

theorem hexDigitChar_mem (n : Nat) : hexDigitChar n ∈ "0123456789abcdef".data := by
  have h16 : n % 16 < 16 := Nat.mod_lt _ (by norm_num)
  rw [hexDigitChar]
  generalize n % 16 = m at h16 ⊢
  interval_cases m <;> decide

theorem toHex8_mem {x : Nat} {ch : Char} (h : ch ∈ toHex8 x) :
    ch ∈ "0123456789abcdef".data := by
  rw [toHex8] at h
  simp only [List.mem_cons, List.not_mem_nil, or_false] at h
  rcases h with h | h | h | h | h | h | h | h <;> subst h <;> apply hexDigitChar_mem

set_option maxRecDepth 40000 in
/-- C10 counterexample: two file mappings equal as sets of key-value
pairs but with different insertion order receive different commit ids —
the hashed string form is Python's order-dependent `str(dict)`, not a
canonical order-independent serialization. -/
theorem c10_hash_not_order_independent :
    ([("a", some "x"), ("b", some "y")] : Dict).Perm
      [("b", some "y"), ("a", some "x")] ∧
    commit_hash [("a", some "x"), ("b", some "y")] ≠
      commit_hash [("b", some "y"), ("a", some "x")] := by
  constructor
  · decide
  · decide

/-- C10 amended: the commit id built while merging is the first 7
characters of the 40-character lowercase-hex SHA-1 digest of Python's
`str()` rendering of the mapping — a string form that depends on the
mapping's insertion order, so mappings equal as sets may receive
different ids. -/
theorem c10_hash_shape (d : Dict) :
    (sha1HexChars (strBytes (dict_str d))).length = 40 ∧
    commit_hash d = String.mk ((sha1HexChars (strBytes (dict_str d))).take 7) ∧
    (commit_hash d).length = 7 ∧
    ∀ ch ∈ (commit_hash d).data, ch ∈ "0123456789abcdef".data := by
  have hlen : (sha1HexChars (strBytes (dict_str d))).length = 40 := by
    rw [sha1HexChars]
    simp [toHex8]
  refine ⟨hlen, rfl, ?_, ?_⟩
  · show (String.mk ((sha1HexChars (strBytes (dict_str d))).take 7)).length = 7
    simp [String.length, hlen]
  · intro ch hch
    have hch' : ch ∈ (sha1HexChars (strBytes (dict_str d))).take 7 := hch
    have hsub := (List.take_prefix 7 (sha1HexChars (strBytes (dict_str d)))).subset
    have hmem := hsub hch'
    rw [sha1HexChars] at hmem
    simp only [List.mem_append] at hmem
    rcases hmem with ((((h | h) | h) | h) | h) <;> exact toHex8_mem h

/-! ## The `BranchManager` object graph as an arena

Python `BranchNode` objects form a heap with aliasing (the `current`
cursor and the `parent` back-references are references into it), so the
manager is modelled as an arena: `nodes` is the object store, a node's
`children`/`parent` hold arena indices, `root`/`current` are indices.
Recursive traversals over the arena take a fuel argument; the public
operations pass `nodes.length + 1`, which bounds the depth of every
tree-shaped arena. Python exceptions surface as `Except PyErr`. -/

/-- The Python exceptions the branch manager can raise. -/
inductive PyErr where
  | valueError (msg : String)
  | attributeError
deriving DecidableEq, Repr

structure BranchManager where
  nodes : List Node
  root : Nat
  current : Nat
deriving DecidableEq, Repr

/-- `_find_branch_postorder` on the arena: children in list order first,
then the node's own name. -/
def find_branch_postorder (nodes : List Node) (name : String) :
    Nat → Nat → Option Nat
  | 0, _ => none
  | fuel + 1, i =>
    match nodes[i]? with
    | none => none
    | some nd =>
      match nd.children.findSome? (find_branch_postorder nodes name fuel) with
      | some r => some r
      | none => if nd.name = name then some i else none

/-- `_checkout_inorder` on the arena: the node itself first, then every
child but the last left to right, then the last child. -/
def checkout_search (nodes : List Node) (name : String) :
    Nat → Nat → Option Nat
  | 0, _ => none
  | fuel + 1, i =>
    match nodes[i]? with
    | none => none
    | some nd =>
      if nd.name = name then some i
      else
        match nd.children.dropLast.findSome? (checkout_search nodes name fuel) with
        | some r => some r
        | none =>
          match nd.children.getLast? with
          | some lastc => checkout_search nodes name fuel lastc
          | none => none

/-- Resolve a list of arena indices to their nodes (`none` on a dangling
reference, which never occurs in a state the manager builds). -/
def getNodes (nodes : List Node) : List Nat → Option (List Node)
  | [] => some []
  | i :: is =>
    match nodes[i]?, getNodes nodes is with
    | some nd, some nds => some (nd :: nds)
    | _, _ => none

/-- `BranchManager.create_branch`: raise `ValueError` when a direct child
of `current` already has the name, else append a fresh child (empty
commit log, parent back-reference to `current`). -/
def BranchManager.create_branch (m : BranchManager) (name : String) :
    Except PyErr BranchManager :=
  match m.nodes[m.current]? with
  | none => .error .attributeError
  | some cur =>
    match getNodes m.nodes cur.children with
    | none => .error .attributeError
    | some childNodes =>
      if childNodes.any (fun c => c.name == name) then
        .error (.valueError ("Branch " ++ name ++ " already exists"))
      else
        let newNode : Node := ⟨name, some m.current, [], []⟩
        let nodes' :=
          (m.nodes.set m.current
            { cur with children := cur.children ++ [m.nodes.length] }) ++ [newNode]
        .ok { m with nodes := nodes' }

/-- `BranchManager.delete_branch`: postorder lookup; a found childless
node is detached from `branch.parent.children` — when `branch.parent`
is `None` this is Python's `AttributeError`; not-found or non-leaf is a
silent no-op. -/
def BranchManager.delete_branch (m : BranchManager) (name : String) :
    Except PyErr BranchManager :=
  match find_branch_postorder m.nodes name (m.nodes.length + 1) m.root with
  | none => .ok m
  | some bid =>
    match m.nodes[bid]? with
    | none => .error .attributeError
    | some b =>
      if b.children.isEmpty then
        match b.parent with
        | none => .error .attributeError
        | some pid =>
          match m.nodes[pid]? with
          | none => .error .attributeError
          | some p =>
            if bid ∈ p.children then
              .ok { m with
                      nodes := m.nodes.set pid
                        { p with children := p.children.erase bid } }
            else .error (.valueError "list.remove(x): x not in list")
      else .ok m

/-- `BranchManager.checkout`: deferred-last-child DFS from the root; on a
hit set `current` and report `true`, else leave the state and report
`false`. -/
def BranchManager.checkout (m : BranchManager) (name : String) :
    BranchManager × Bool :=
  match checkout_search m.nodes name (m.nodes.length + 1) m.root with
  | some i => ({ m with current := i }, true)
  | none => (m, false)

/-- Python `dict.update`: existing keys keep their position and take the
new value; new keys are appended in the updating dict's order. -/
def dict_update (d diff : Dict) : Dict :=
  (d.map fun e =>
    match diff.lookup e.1 with
    | some v => (e.1, v)
    | none => e) ++
  diff.filter fun e => (d.lookup e.1).isNone

/-- `BranchManager._apply_merge`: copy `current`'s latest table, fold the
diff in, and append the commit `("Merge commit", merged)` hashed from the
merged table. -/
def BranchManager.apply_merge (m : BranchManager) (diff : Dict) :
    Except PyErr BranchManager :=
  match m.nodes[m.current]? with
  | none => .error .attributeError
  | some cur =>
    let current_files := latestFiles cur.commits
    let merged := dict_update current_files diff
    let newCommit : Commit := ⟨commit_hash merged, "Merge commit", merged⟩
    .ok { m with
            nodes := m.nodes.set m.current
              { cur with commits := cur.commits ++ [newCommit] } }

/-- `BranchManager.merge`: postorder source lookup (raising `ValueError`
when absent), diff against `current`, `_apply_merge`, then construction
AND append of the marker commit `("Merge <src> into <cur>", diff)` hashed
from the diff. -/
def BranchManager.merge (m : BranchManager) (source_name : String) :
    Except PyErr BranchManager :=
  match find_branch_postorder m.nodes source_name (m.nodes.length + 1) m.root with
  | none => .error (.valueError "Source branch not found")
  | some sid =>
    match m.nodes[sid]?, m.nodes[m.current]? with
    | some snode, some cnode =>
      let diff := calculate_diff snode cnode
      match m.apply_merge diff with
      | .error e => .error e
      | .ok m' =>
        match m'.nodes[m'.current]? with
        | none => .error .attributeError
        | some cur' =>
          let merge_commit : Commit :=
            ⟨commit_hash diff,
             "Merge " ++ source_name ++ " into " ++ cur'.name, diff⟩
          .ok { m' with
                  nodes := m'.nodes.set m'.current
                    { cur' with commits := cur'.commits ++ [merge_commit] } }
    | _, _ => .error .attributeError

mutual
/-- `BranchManager._deserialize` building the arena: a fresh node record
per document node — constructed as `BranchNode(data["name"])`, i.e. with
`parent = None`; child subtrees are materialised and linked by index.
(Subtrees are allocated before their parent; allocation order is not
observable.) -/
def deserializeArena : BTree → List Node → List Node × Nat
  | .node n cm cs, arena =>
    let res := deserializeListArena cs arena
    (res.1 ++ [⟨n, none, res.2, cm⟩], res.1.length)

def deserializeListArena : List BTree → List Node → List Node × List Nat
  | [], arena => (arena, [])
  | c :: cs, arena =>
    let res := deserializeArena c arena
    let res' := deserializeListArena cs res.1
    (res'.1, res.2 :: res'.2)
end

mutual
/-- `BranchManager._serialize` from the arena: each node becomes
`(name, commits, children)` recursively. -/
def serializeArena (nodes : List Node) : Nat → Nat → Option BTree
  | 0, _ => none
  | fuel + 1, i =>
    match nodes[i]? with
    | none => none
    | some nd =>
      match serializeListArena nodes fuel nd.children with
      | none => none
      | some cs => some (.node nd.name nd.commits cs)
termination_by fuel _ => (fuel, 0)

def serializeListArena (nodes : List Node) : Nat → List Nat → Option (List BTree)
  | _, [] => some []
  | fuel, i :: is =>
    match serializeArena nodes fuel i, serializeListArena nodes fuel is with
    | some c, some cs => some (c :: cs)
    | _, _ => none
termination_by fuel is => (fuel, is.length + 1)
end

/-- `BranchManager.load`: a missing store (`FileNotFoundError`) is
ignored; otherwise the tree is rebuilt from the document and `current`
is reset to the new root unconditionally. -/
def BranchManager.load (m : BranchManager) (stored : Option BTree) :
    BranchManager :=
  match stored with
  | none => m
  | some doc =>
    let res := deserializeArena doc []
    ⟨res.1, res.2, res.2⟩

/-- `BranchManager.__init__`: a single-node tree `"main"` (which is both
root and `current`), then `load`. -/
def BranchManager.init (stored : Option BTree) : BranchManager :=
  BranchManager.load ⟨[⟨"main", none, [], []⟩], 0, 0⟩ stored

/-- Reachability from index `i` to index `k` along `children` edges. -/
inductive Reaches (nodes : List Node) : Nat → Nat → Prop where
  | refl (i : Nat) : Reaches nodes i i
  | step {i j k : Nat} (h1 : Reaches nodes i j) (nd : Node)
      (h2 : nodes[j]? = some nd) (h3 : k ∈ nd.children) : Reaches nodes i k

deriving instance DecidableEq for Except

/-! ## `delete_branch` behaviour -/

/-- Case analysis of `delete_branch` by the outcome of its postorder
lookup: not-found and non-leaf are silent no-ops; a found childless node
with `parent = None` raises `AttributeError`; a found childless node
with a live parent is detached from exactly that parent's child list. -/
theorem delete_branch_spec (m : BranchManager) (name : String) :
    (find_branch_postorder m.nodes name (m.nodes.length + 1) m.root = none →
      m.delete_branch name = .ok m)
    ∧ (∀ bid b,
        find_branch_postorder m.nodes name (m.nodes.length + 1) m.root = some bid →
        m.nodes[bid]? = some b → b.children ≠ [] →
        m.delete_branch name = .ok m)
    ∧ (∀ bid b,
        find_branch_postorder m.nodes name (m.nodes.length + 1) m.root = some bid →
        m.nodes[bid]? = some b → b.children = [] → b.parent = none →
        m.delete_branch name = .error .attributeError)
    ∧ (∀ bid b pid p,
        find_branch_postorder m.nodes name (m.nodes.length + 1) m.root = some bid →
        m.nodes[bid]? = some b → b.children = [] → b.parent = some pid →
        m.nodes[pid]? = some p → bid ∈ p.children →
        m.delete_branch name =
          .ok { m with
                nodes := m.nodes.set pid { p with children := p.children.erase bid } }) := by
  refine ⟨?_, ?_, ?_, ?_⟩
  · intro hfind
    rw [BranchManager.delete_branch, hfind]
  · intro bid b hfind hb hch
    rw [BranchManager.delete_branch, hfind]
    have hie : b.children.isEmpty = false := by
      cases hc : b.children with
      | nil => exact absurd hc hch
      | cons x xs => rfl
    simp only [hb, hie]
    rfl
  · intro bid b hfind hb hch hpar
    rw [BranchManager.delete_branch, hfind]
    have hie : b.children.isEmpty = true := by rw [hch]; rfl
    simp only [hb, hie, hpar]
    rfl
  · intro bid b pid p hfind hb hch hpar hp hmem
    rw [BranchManager.delete_branch, hfind]
    have hie : b.children.isEmpty = true := by rw [hch]; rfl
    simp only [hb, hie, hpar, hp]
    simp [hmem]

/-- C6 counterexample: on the fresh single-node tree, `delete_branch`
of the root `"main"` finds the childless root, whose `parent` is `None`,
and `branch.parent.children` raises `AttributeError` — the call is not
error-free. -/
theorem c6_delete_root_raises :
    (BranchManager.init none).delete_branch "main" = .error .attributeError := by
  decide

/-- C6 amended: `delete_branch` is a silent no-op when the name is not
found or the found node has children; a found childless node whose
parent reference is set is detached from exactly that parent's child
list (never the root, whose parent is unset); but a found childless node
whose parent reference is unset — in particular the root of a fresh
single-node tree — raises `AttributeError` instead of being a no-op. -/
theorem c6_delete_branch_cases (m : BranchManager) (name : String) :
    (find_branch_postorder m.nodes name (m.nodes.length + 1) m.root = none →
      m.delete_branch name = .ok m)
    ∧ (∀ bid b,
        find_branch_postorder m.nodes name (m.nodes.length + 1) m.root = some bid →
        m.nodes[bid]? = some b → b.children ≠ [] →
        m.delete_branch name = .ok m)
    ∧ (∀ bid b,
        find_branch_postorder m.nodes name (m.nodes.length + 1) m.root = some bid →
        m.nodes[bid]? = some b → b.children = [] → b.parent = none →
        m.delete_branch name = .error .attributeError)
    ∧ (∀ bid b pid p,
        find_branch_postorder m.nodes name (m.nodes.length + 1) m.root = some bid →
        m.nodes[bid]? = some b → b.children = [] → b.parent = some pid →
        m.nodes[pid]? = some p → bid ∈ p.children →
        m.delete_branch name =
          .ok { m with
                nodes := m.nodes.set pid { p with children := p.children.erase bid } }) :=
  delete_branch_spec m name

/-- Concrete instance of `c6_delete_branch_cases`: deleting a name that
occurs nowhere is a silent no-op. -/
theorem c6_delete_branch_cases_witness :
    (BranchManager.init none).delete_branch "nope" = .ok (BranchManager.init none) :=
  (c6_delete_branch_cases (BranchManager.init none) "nope").1 (by decide)

/-! ## C4: the `current` cursor after `delete_branch` -/

/-- C4 counterexample: after `create_branch "f"`, `checkout "f"`,
`delete_branch "f"` the call succeeds, but `current` still references
the detached node 1, which is no longer reachable from the root 0. -/
theorem c4_current_left_dangling :
    (((BranchManager.init none).create_branch "f").bind
        (fun m => ((m.checkout "f").1).delete_branch "f")
      = .ok ⟨[⟨"main", none, [], []⟩, ⟨"f", some 0, [], []⟩], 0, 1⟩)
    ∧ ¬ Reaches [⟨"main", none, [], []⟩, ⟨"f", some 0, [], []⟩] 0 1 := by
  constructor
  · decide
  · intro h
    cases h with
    | step h1 nd h2 h3 =>
      rename_i j
      have hch : nd.children = [] := by
        match j, h2 with
        | 0, h2 => cases h2; rfl
        | 1, h2 => cases h2; rfl
        | q + 2, h2 => simp at h2
      rw [hch] at h3
      simp at h3

/-- C4 amended: the invariant fails at `delete_branch`: the operation
never updates `current`, so when it deletes the very node that `current`
references (a found childless non-root node, linked exactly once from
its live parent's child list), the cursor is left referencing the
detached node and no longer references any node reachable from the
root; `current` itself is unchanged (never null). -/
theorem c4_delete_current_unreachable (m : BranchManager) (name : String)
    (bid pid : Nat) (b p : Node)
    (hfind : find_branch_postorder m.nodes name (m.nodes.length + 1) m.root = some bid)
    (hb : m.nodes[bid]? = some b) (hleaf : b.children = [])
    (hpar : b.parent = some pid) (hp : m.nodes[pid]? = some p)
    (hmem : bid ∈ p.children)
    (hcur : m.current = bid) (hroot : m.root ≠ bid)
    (huniq : ∀ q nd, m.nodes[q]? = some nd → bid ∈ nd.children → q = pid)
    (hcount : p.children.count bid = 1) :
    m.delete_branch name =
      .ok { m with
            nodes := m.nodes.set pid { p with children := p.children.erase bid } }
    ∧ ¬ Reaches (m.nodes.set pid { p with children := p.children.erase bid })
        m.root m.current := by
  refine ⟨(delete_branch_spec m name).2.2.2 bid b pid p hfind hb hleaf hpar hp hmem, ?_⟩
  rw [hcur]
  intro h
  cases h with
  | refl => exact hroot rfl
  | step h1 nd h2 h3 =>
    rename_i j
    by_cases hj : j = pid
    · subst hj
      have hlt : j < m.nodes.length := by
        rcases List.getElem?_eq_some.mp hp with ⟨hl, _⟩
        exact hl
      rw [List.getElem?_set_eq_of_lt _ hlt] at h2
      cases h2
      have : (p.children.erase bid).count bid = 0 := by
        rw [List.count_erase_self, hcount]
      have hnot : bid ∉ p.children.erase bid := List.count_eq_zero.mp this
      exact hnot h3
    · rw [List.getElem?_set_ne (fun he => hj he.symm)] at h2
      exact hj (huniq j nd h2 h3)

/-- Concrete instance of `c4_delete_current_unreachable` on the state
reached by `create_branch "f"; checkout "f"`. -/
theorem c4_delete_current_unreachable_witness :
    (⟨[⟨"main", none, [1], []⟩, ⟨"f", some 0, [], []⟩], 0, 1⟩ : BranchManager).delete_branch "f"
      = .ok ⟨[⟨"main", none, [], []⟩, ⟨"f", some 0, [], []⟩], 0, 1⟩
    ∧ ¬ Reaches [⟨"main", none, [], []⟩, ⟨"f", some 0, [], []⟩] 0 1 := by
  have h := c4_delete_current_unreachable
    ⟨[⟨"main", none, [1], []⟩, ⟨"f", some 0, [], []⟩], 0, 1⟩ "f" 1 0
    ⟨"f", some 0, [], []⟩ ⟨"main", none, [1], []⟩
    (by decide) (by decide) (by decide) (by decide) (by decide) (by decide)
    (by decide) (by decide)
    (by
      intro q nd hq hmem1
      match q, hq with
      | 0, hq => rfl
      | 1, hq =>
        cases hq
        simp at hmem1
      | q + 2, hq => simp at hq)
    (by decide)
  exact h

/-! ## C5: parent back-references after deserialization -/

theorem deserializeArena_parents_none :
    ∀ (doc : BTree) (arena : List Node),
      (∀ nd ∈ arena, nd.parent = none) →
      ∀ nd ∈ (deserializeArena doc arena).1, nd.parent = none := by
  apply BTree.inductionOn
    (P := fun doc => ∀ arena, (∀ nd ∈ arena, nd.parent = none) →
      ∀ nd ∈ (deserializeArena doc arena).1, nd.parent = none)
  intro n cm cs ih
  have hlist : ∀ (l : List BTree),
      (∀ c ∈ l, ∀ arena, (∀ nd ∈ arena, nd.parent = none) →
        ∀ nd ∈ (deserializeArena c arena).1, nd.parent = none) →
      ∀ arena, (∀ nd ∈ arena, nd.parent = none) →
      ∀ nd ∈ (deserializeListArena l arena).1, nd.parent = none := by
    intro l
    induction l with
    | nil =>
      intro _ arena ha nd hnd
      rw [deserializeListArena] at hnd
      exact ha nd hnd
    | cons c l ihl =>
      intro hmem arena ha nd hnd
      rw [deserializeListArena] at hnd
      exact ihl (fun c' hc' => hmem c' (by simp [hc']))
        (deserializeArena c arena).1
        (hmem c (by simp) arena ha) nd hnd
  intro arena ha nd hnd
  rw [deserializeArena] at hnd
  rcases List.mem_append.mp hnd with hnd | hnd
  · exact hlist cs ih arena ha nd hnd
  · rw [List.mem_singleton] at hnd
    subst hnd
    rfl

/-- C5: contrary to the claimed invariant, `_deserialize` builds every
node as `BranchNode(data["name"])` and never re-links `parent`: in a
loaded tree every node's parent reference is `None`, so `delete_branch`
of a leaf of a freshly loaded tree crashes with `AttributeError` instead
of detaching it (the code contradicts its own `delete_branch`, which
relies on the back-reference). -/
theorem c5_deserialize_loses_parent :
    (∀ (doc : BTree) (nd : Node), nd ∈ (deserializeArena doc []).1 → nd.parent = none)
    ∧ (BranchManager.init
        (some (BTree.node "main" [] [BTree.node "f" [] []]))).delete_branch "f"
      = .error .attributeError := by
  constructor
  · intro doc nd hnd
    exact deserializeArena_parents_none doc [] (by intro nd h; simp at h) nd hnd
  · decide

/-- Concrete instance of `c5_deserialize_loses_parent`: the non-root
node `"f"` of the loaded two-node tree has `parent = None`. -/
theorem c5_deserialize_loses_parent_witness :
    (⟨"f", none, [], []⟩ : Node).parent = none :=
  c5_deserialize_loses_parent.1 (BTree.node "main" [] [BTree.node "f" [] []])
    ⟨"f", none, [], []⟩ (by decide)

/-! ## C1: what `merge` appends to the current branch's log -/

set_option maxRecDepth 100000 in
/-- C1 counterexample: `create_branch "f"` then `merge "f"` leaves TWO
new commits on `main`'s log — the `"Merge commit"` built from the merged
table, and then the marker commit `"Merge f into main"`, which IS stored
(as the latest commit), contrary to the claim that exactly one commit is
appended and the marker discarded. -/
theorem c1_marker_commit_is_stored :
    (((BranchManager.init none).create_branch "f").bind
        (fun m => m.merge "f")).map
      (fun m => (m.nodes[m.current]?).map (fun c => c.commits.map Commit.message))
    = .ok (some ["Merge commit", "Merge f into main"]) := by
  decide

/-- C1 amended: a `merge` whose source lookup succeeds appends exactly
two commits to the current branch's log and touches no other node:
first the commit built from the full merged table (message
`"Merge commit"`, hashed from the merged table), then the marker commit
(message `"Merge <source> into <current>"`, files = diff, hashed from
the diff), which becomes the latest commit. -/
theorem c1_merge_appends_merge_and_marker (m : BranchManager)
    (source_name : String) (sid : Nat) (snode cnode : Node)
    (hfind : find_branch_postorder m.nodes source_name (m.nodes.length + 1) m.root = some sid)
    (hs : m.nodes[sid]? = some snode)
    (hc : m.nodes[m.current]? = some cnode) :
    ∃ m', m.merge source_name = .ok m' ∧
      m'.root = m.root ∧ m'.current = m.current ∧
      m'.nodes[m.current]? = some { cnode with commits := cnode.commits ++
          [⟨commit_hash (dict_update (latestFiles cnode.commits) (calculate_diff snode cnode)),
            "Merge commit",
            dict_update (latestFiles cnode.commits) (calculate_diff snode cnode)⟩,
           ⟨commit_hash (calculate_diff snode cnode),
            "Merge " ++ source_name ++ " into " ++ cnode.name,
            calculate_diff snode cnode⟩] }
      ∧ (∀ j, j ≠ m.current → m'.nodes[j]? = m.nodes[j]?) := by
  have hlt : m.current < m.nodes.length := by
    rcases List.getElem?_eq_some.mp hc with ⟨hl, _⟩
    exact hl
  rw [BranchManager.merge, hfind]
  simp only [hs, hc]
  rw [BranchManager.apply_merge]
  simp only [hc]
  set diff := calculate_diff snode cnode with hdiff
  set merged := dict_update (latestFiles cnode.commits) diff with hmerged
  set c1 : Commit := ⟨commit_hash merged, "Merge commit", merged⟩ with hc1
  set m1 : BranchManager :=
    { m with nodes := m.nodes.set m.current { cnode with commits := cnode.commits ++ [c1] } }
    with hm1
  have hm1get : m1.nodes[m.current]? = some { cnode with commits := cnode.commits ++ [c1] } := by
    rw [hm1]
    exact List.getElem?_set_eq_of_lt _ hlt
  simp only [hm1get]
  refine ⟨_, rfl, rfl, rfl, ?_, ?_⟩
  · show (m1.nodes.set m.current _)[m.current]? = _
    rw [hm1]
    simp only [List.set_set]
    rw [List.getElem?_set_eq_of_lt _ hlt]
    simp [hc1, List.append_assoc]
  · intro j hj
    show (m1.nodes.set m.current _)[j]? = _
    rw [List.getElem?_set_ne (fun he => hj he.symm), hm1,
        List.getElem?_set_ne (fun he => hj he.symm)]

/-- Concrete instance of `c1_merge_appends_merge_and_marker` on the
state reached by `create_branch "f"`. -/
theorem c1_merge_appends_merge_and_marker_witness :
    ∃ m', (⟨[⟨"main", none, [1], []⟩, ⟨"f", some 0, [], []⟩], 0, 0⟩ : BranchManager).merge "f"
        = .ok m' ∧
      m'.root = 0 ∧ m'.current = 0 ∧
      m'.nodes[0]? = some { (⟨"main", none, [1], []⟩ : Node) with commits :=
          ([] : List Commit) ++
          [⟨commit_hash (dict_update (latestFiles []) (calculate_diff ⟨"f", some 0, [], []⟩ ⟨"main", none, [1], []⟩)),
            "Merge commit",
            dict_update (latestFiles []) (calculate_diff ⟨"f", some 0, [], []⟩ ⟨"main", none, [1], []⟩)⟩,
           ⟨commit_hash (calculate_diff ⟨"f", some 0, [], []⟩ ⟨"main", none, [1], []⟩),
            "Merge " ++ "f" ++ " into " ++ "main",
            calculate_diff ⟨"f", some 0, [], []⟩ ⟨"main", none, [1], []⟩⟩] }
      ∧ (∀ j, j ≠ 0 → m'.nodes[j]? =
          ([⟨"main", none, [1], []⟩, ⟨"f", some 0, [], []⟩] : List Node)[j]?) :=
  c1_merge_appends_merge_and_marker
    ⟨[⟨"main", none, [1], []⟩, ⟨"f", some 0, [], []⟩], 0, 0⟩ "f" 1
    ⟨"f", some 0, [], []⟩ ⟨"main", none, [1], []⟩
    (by decide) (by decide) (by decide)

/-! ## C8: `create_branch` duplicate detection -/

/-- C8: `create_branch` fails (Python `ValueError`, the spec's
`DuplicateBranchError`) exactly when some existing direct child of the
current branch already bears the name; otherwise it appends under
`current` a fresh child with that name, an empty commit log and a parent
back-reference to `current`. The duplicate check consults only
`current`'s direct children, so the same name under two different
parents succeeds both times. -/
theorem c8_create_branch_duplicate_check (m : BranchManager) (name : String)
    (cur : Node) (childNodes : List Node)
    (hcur : m.nodes[m.current]? = some cur)
    (hch : getNodes m.nodes cur.children = some childNodes) :
    ((∃ c ∈ childNodes, c.name = name) →
      m.create_branch name = .error (.valueError ("Branch " ++ name ++ " already exists")))
    ∧ ((∀ c ∈ childNodes, c.name ≠ name) →
      m.create_branch name = .ok { m with nodes :=
        (m.nodes.set m.current { cur with children := cur.children ++ [m.nodes.length] })
          ++ [⟨name, some m.current, [], []⟩] }) := by
  constructor
  · intro hdup
    rw [BranchManager.create_branch]
    simp only [hcur, hch]
    have hany : (childNodes.any fun c => c.name == name) = true := by
      rw [List.any_eq_true]
      obtain ⟨c, hc, hname⟩ := hdup
      exact ⟨c, hc, by simp [hname]⟩
    rw [if_pos hany]
  · intro hnodup
    rw [BranchManager.create_branch]
    simp only [hcur, hch]
    have hany : (childNodes.any fun c => c.name == name) = false := by
      rw [List.any_eq_false]
      intro c hc
      simpa using hnodup c hc
    rw [hany]
    simp

/-- Concrete instance of `c8_create_branch_duplicate_check`: creating
`"f"` again while `main` already has the direct child `"f"` fails. -/
theorem c8_create_branch_duplicate_check_witness :
    (⟨[⟨"main", none, [1], []⟩, ⟨"f", some 0, [], []⟩], 0, 0⟩ : BranchManager).create_branch "f"
      = .error (.valueError ("Branch " ++ "f" ++ " already exists")) :=
  (c8_create_branch_duplicate_check
    ⟨[⟨"main", none, [1], []⟩, ⟨"f", some 0, [], []⟩], 0, 0⟩ "f"
    ⟨"main", none, [1], []⟩ [⟨"f", some 0, [], []⟩]
    (by decide) (by decide)).1
    ⟨⟨"f", some 0, [], []⟩, by decide, by decide⟩

/-! ## C9: persistence round trip -/

mutual
/-- Height of a document tree (used to bound serialization fuel). -/
def BTree.depth : BTree → Nat
  | .node _ _ cs => BTree.depthList cs + 1

def BTree.depthList : List BTree → Nat
  | [] => 0
  | c :: cs => max (BTree.depth c) (BTree.depthList cs)
end

theorem getElem?_mono {α} {l l' : List α} (h : l <+: l') {i : Nat}
    (hi : i < l.length) : l'[i]? = l[i]? := by
  obtain ⟨t, rfl⟩ := h
  rw [List.getElem?_append]
  simp [hi]

theorem deserializeArena_serialize_spec :
    ∀ (doc : BTree) (arena : List Node),
      arena <+: (deserializeArena doc arena).1 ∧
      arena.length < (deserializeArena doc arena).1.length ∧
      (deserializeArena doc arena).2 = (deserializeArena doc arena).1.length - 1 ∧
      ∀ (ext : List Node) (fuel : Nat), (deserializeArena doc arena).1 <+: ext →
        BTree.depth doc ≤ fuel →
        serializeArena ext fuel (deserializeArena doc arena).2 = some doc := by
  apply BTree.inductionOn
    (P := fun doc => ∀ arena,
      arena <+: (deserializeArena doc arena).1 ∧
      arena.length < (deserializeArena doc arena).1.length ∧
      (deserializeArena doc arena).2 = (deserializeArena doc arena).1.length - 1 ∧
      ∀ (ext : List Node) (fuel : Nat), (deserializeArena doc arena).1 <+: ext →
        BTree.depth doc ≤ fuel →
        serializeArena ext fuel (deserializeArena doc arena).2 = some doc)
  intro n cm cs ih
  have hlist : ∀ (l : List BTree),
      (∀ c ∈ l, ∀ arena,
        arena <+: (deserializeArena c arena).1 ∧
        arena.length < (deserializeArena c arena).1.length ∧
        (deserializeArena c arena).2 = (deserializeArena c arena).1.length - 1 ∧
        ∀ (ext : List Node) (fuel : Nat), (deserializeArena c arena).1 <+: ext →
          BTree.depth c ≤ fuel →
          serializeArena ext fuel (deserializeArena c arena).2 = some c) →
      ∀ arena,
        arena <+: (deserializeListArena l arena).1 ∧
        ∀ (ext : List Node) (fuel : Nat), (deserializeListArena l arena).1 <+: ext →
          BTree.depthList l ≤ fuel →
          serializeListArena ext fuel (deserializeListArena l arena).2 = some l := by
    intro l
    induction l with
    | nil =>
      intro _ arena
      rw [deserializeListArena]
      refine ⟨List.prefix_refl arena, ?_⟩
      intro ext fuel _ _
      rw [serializeListArena]
    | cons c l ihl =>
      intro hmem arena
      have hc := hmem c (by simp) arena
      have hrest := ihl (fun c' hc' => hmem c' (by simp [hc']))
        (deserializeArena c arena).1
      rw [deserializeListArena]
      refine ⟨hc.1.trans hrest.1, ?_⟩
      intro ext fuel hpre hfuel
      rw [serializeListArena]
      have hone : serializeArena ext fuel (deserializeArena c arena).2 = some c := by
        apply hc.2.2.2 ext fuel (hrest.1.trans hpre)
        calc BTree.depth c ≤ BTree.depthList (c :: l) := by
              rw [BTree.depthList]; exact le_max_left _ _
          _ ≤ fuel := hfuel
      have hmany : serializeListArena ext fuel (deserializeListArena l (deserializeArena c arena).1).2 = some l := by
        apply hrest.2 ext fuel hpre
        calc BTree.depthList l ≤ BTree.depthList (c :: l) := by
              rw [BTree.depthList]; exact le_max_right _ _
          _ ≤ fuel := hfuel
      rw [hone, hmany]
  intro arena
  have hl := hlist cs ih arena
  rw [deserializeArena]
  refine ⟨?_, ?_, ?_, ?_⟩
  · exact hl.1.trans (List.prefix_append _ _)
  · have := hl.1.length_le
    simp only [List.length_append, List.length_cons, List.length_nil]
    omega
  · simp
  · intro ext fuel hpre hfuel
    rw [BTree.depth] at hfuel
    cases fuel with
    | zero => omega
    | succ f =>
      rw [serializeArena]
      have hidx : ext[(deserializeListArena cs arena).1.length]? =
          some ⟨n, none, (deserializeListArena cs arena).2, cm⟩ := by
        rw [getElem?_mono hpre (by simp)]
        exact List.getElem?_concat_length _ _
      rw [hidx]
      have hcs : serializeListArena ext f (deserializeListArena cs arena).2 = some cs := by
        apply hl.2 ext f ((List.prefix_append _ _).trans hpre)
        omega
      simp [hcs]

/-- C9: when a manager's tree serializes to a document, loading that
document yields a tree that serializes to the very same document (hence
identical `name`/`children` shape and identical commit `id`/`message`/
`files` for every branch), while the `current` cursor is reset to the
root unconditionally. -/
theorem c9_roundtrip_resets_current (m : BranchManager) (doc : BTree)
    (fuel : Nat)
    (_hser : serializeArena m.nodes fuel m.root = some doc) :
    (∀ f, BTree.depth doc ≤ f →
      serializeArena (m.load (some doc)).nodes f (m.load (some doc)).root = some doc)
    ∧ (m.load (some doc)).current = (m.load (some doc)).root := by
  constructor
  · intro f hf
    have h := deserializeArena_serialize_spec doc []
    rw [BranchManager.load]
    exact h.2.2.2 (deserializeArena doc []).1 f (List.prefix_refl _) hf
  · rw [BranchManager.load]

/-- Concrete instance of `c9_roundtrip_resets_current` on the two-node
tree `main → [f]`. -/
theorem c9_roundtrip_resets_current_witness :
    serializeArena
        ((⟨[⟨"main", none, [1], []⟩, ⟨"f", some 0, [], []⟩], 0, 0⟩ : BranchManager).load
          (some (BTree.node "main" [] [BTree.node "f" [] []]))).nodes 2
        ((⟨[⟨"main", none, [1], []⟩, ⟨"f", some 0, [], []⟩], 0, 0⟩ : BranchManager).load
          (some (BTree.node "main" [] [BTree.node "f" [] []]))).root
      = some (BTree.node "main" [] [BTree.node "f" [] []])
    ∧ ((⟨[⟨"main", none, [1], []⟩, ⟨"f", some 0, [], []⟩], 0, 0⟩ : BranchManager).load
          (some (BTree.node "main" [] [BTree.node "f" [] []]))).current
      = ((⟨[⟨"main", none, [1], []⟩, ⟨"f", some 0, [], []⟩], 0, 0⟩ : BranchManager).load
          (some (BTree.node "main" [] [BTree.node "f" [] []]))).root := by
  have h := c9_roundtrip_resets_current
    ⟨[⟨"main", none, [1], []⟩, ⟨"f", some 0, [], []⟩], 0, 0⟩
    (BTree.node "main" [] [BTree.node "f" [] []]) 2
    (by simp [serializeArena, serializeListArena])
  exact ⟨h.1 2 (by decide), h.2⟩

/-- Concrete instance of `c2_calculate_diff_characterization`: two
branches with no commits have an empty diff at every path. -/
theorem c2_calculate_diff_characterization_witness :
    (calculate_diff ⟨"f", none, [], []⟩ ⟨"main", none, [], []⟩).lookup "a" = none := by
  have h := c2_calculate_diff_characterization ⟨"f", none, [], []⟩ ⟨"main", none, [], []⟩ "a"
  simpa using h

/-- Concrete instance of `c10_hash_shape`: the id hashed from the empty
table has length 7. -/
theorem c10_hash_shape_witness : (commit_hash ([] : Dict)).length = 7 :=
  (c10_hash_shape []).2.2.1
